import Mathlib

/-!
Verification of the reactivity core (dependency tracking / change propagation
engine) against its natural-language specification.

The development shallowly embeds the relevant source functions:
* `operations.ts` : the trigger-operation kinds (`TriggerOp`)
* shared utils    : `hasChanged` (`!Object.is`), `isIntegerKey`
* `baseHandlers.ts` : the mutable `createSetter` trap and the read-only
  handler's `set`/`deleteProperty` traps
* `effect.ts` / `dep.ts` : `trigger`'s dependency-set selection,
  `triggerEffects`/`triggerEffect` ordering and dedup, the bitmask
  subscription algorithm (`initDepMarkers`, `trackEffects`,
  `finalizeDepMarkers`, `ReactiveEffect.run`), `cleanupEffect` and
  `ReactiveEffect.stop`.

JavaScript values are modelled by the inductive `JSVal`; `NaN` and `-0` are
separate constructors so that JS `Object.is` (SameValue) coincides with
structural equality on this domain.  Property keys (strings or symbols) are
modelled by `PKey`.  JS numeric coercion of key strings is modelled for
unsigned decimal digit strings (canonical array indices and non-canonical
forms with leading zeros); every other string coerces to NaN in the model.
-/

/-- Property keys of a proxied object: strings or symbols. -/
inductive PKey where
  | str (s : String)
  | sym (i : Nat)
deriving DecidableEq, Repr

/-- JS values, abstracted: numbers are split into NaN, negative zero and
integer-valued finite numbers so that SameValue is structural equality.
`refV i ro inner` is a ref-like box with identity `i`, read-only flag `ro`
and current inner value `inner`. -/
inductive JSVal where
  | undef
  | nullV
  | boolV (b : Bool)
  | nan
  | negZero
  | num (n : Int)
  | str (s : String)
  | sym (i : Nat)
  | obj (i : Nat)
  | refV (i : Nat) (ro : Bool) (inner : JSVal)
deriving DecidableEq, Repr

/-- JS `Object.is` (SameValue).  NaN and negative zero are distinct
constructors of `JSVal`, so SameValue coincides with structural equality. -/
def objectIs (a b : JSVal) : Bool := a == b

/-- Source `hasChanged` (shared utils): `(value, oldValue) => !Object.is(value, oldValue)`. -/
def hasChanged (value oldValue : JSVal) : Bool := !objectIs value oldValue

/-- Value of an all-decimal-digit character list; `none` as soon as a
non-digit appears. -/
def digitsVal (l : List Char) : Option Nat :=
  l.foldl
    (fun acc c =>
      match acc with
      | none => none
      | some n => if c.isDigit then some (n * 10 + (c.toNat - 48)) else none)
    (some 0)

/-- Decimal value of a string of digits; `none` for the empty string or any
string holding a non-digit. -/
def strDigits? (s : String) : Option Nat :=
  match s.data with
  | [] => none
  | _ => digitsVal s.data

/-- Source `isIntegerKey` (shared utils): the round-trip check
`'' + parseInt(key, 10) === key`, i.e. a canonical unsigned decimal integer
string: nonempty, all digits, no leading zero except for `"0"` itself.
Faithful to the source for every non-digit string (the round-trip always
fails there) and for digit strings of value at most `2 ^ 53`, where
`parseInt` is exact and formatting is canonical; for larger digit strings
the source's outcome depends on IEEE-754 double rounding and formatting,
which is outside this model — theorems that depend on integer-key
classification restrict the key domain by hypothesis (`inModelDom`). -/
def isIntegerKeyS (s : String) : Bool :=
  match s.data with
  | [] => false
  | [c] => c.isDigit
  | c :: rest => c.isDigit && c != '0' && rest.all (fun d => d.isDigit)

/-- `isIntegerKey` lifted to property keys; symbols are never integer keys. -/
def isIntegerKeyP : PKey → Bool
  | .str s => isIntegerKeyS s
  | .sym _ => false

/-- The key domain on which the model's integer-key classification is exact:
every symbol, every non-digit string, and digit strings of value at most
`2 ^ 53`.  Digit strings beyond that bound are excluded because the
source's `parseInt` round-trip there depends on double rounding. -/
def inModelDom : PKey → Bool
  | .sym _ => true
  | .str s =>
    match strDigits? s with
    | some n => decide (n ≤ 2 ^ 53)
    | none => true

/-- Modelled from the spec: `isRef` from the ref module (not under `src/`):
recognizes ref-like boxes ("a tagged-variant value type distinguishing
plain value from boxed reference"). -/
def isRefV : JSVal → Bool
  | .refV _ _ _ => true
  | _ => false

/-- Modelled from the spec: `isReadonly` from the reactive module (not under
`src/`).  In this value domain only ref boxes carry the read-only marker;
there are no read-only object wrappers among the values. -/
def isReadonlyV : JSVal → Bool
  | .refV _ ro _ => ro
  | _ => false

/-- Modelled from the spec: `isShallow` from the reactive module (not under
`src/`).  The value domain contains no shallow wrappers. -/
def isShallowV : JSVal → Bool := fun _ => false

/-- Modelled from the spec: `toRaw` from the reactive module (not under
`src/`): "identity-preserving escape hatch; idempotent on already-raw
objects".  The value domain contains only raw values, so it is the
identity. -/
def toRawV : JSVal → JSVal := id

/-- The target object of a set trap: an array flag, the array length (only
meaningful when `isArr` is true) and the own properties. -/
structure STarget where
  isArr : Bool
  len : Nat
  entries : List (PKey × JSVal)
deriving DecidableEq, Repr

/-- `(target as any)[key]` restricted to own properties; absent keys read as
`undefined`. -/
def getOwnV (t : STarget) (k : PKey) : JSVal :=
  (((t.entries.find? (fun p => p.1 == k)).map (fun p => p.2)).getD .undef)

/-- Source `hasOwn` (shared utils): own-property check. -/
def hasOwnT (t : STarget) (k : PKey) : Bool :=
  (t.entries.find? (fun p => p.1 == k)).isSome

/-- `Number(key)` for keys that already passed `isIntegerKey`. -/
def keyToNat : PKey → Nat
  | .str s => (strDigits? s).getD 0
  | .sym _ => 0

/-- The `hadKey` computation of the source setter: for array targets with an
integer key, whether the index is below the current length; otherwise an
own-property check. -/
def hadKeyB (t : STarget) (k : PKey) : Bool :=
  if t.isArr && isIntegerKeyP k then keyToNat k < t.len else hasOwnT t k

/-- The underlying `Reflect.set` on own data properties: update or append the
entry; an integer-key write at or past an array's length bumps the length
(JS array length exotics such as truncation by `length` writes are outside
the modelled domain). -/
def rawWrite (t : STarget) (k : PKey) (v : JSVal) : STarget :=
  { isArr := t.isArr
    len :=
      if t.isArr && isIntegerKeyP k && decide (t.len ≤ keyToNat k) then
        keyToNat k + 1
      else t.len
    entries :=
      if hasOwnT t k then
        t.entries.map (fun p => if p.1 == k then (p.1, v) else p)
      else t.entries ++ [(k, v)] }

/-- `oldValue.value = value`: write into the ref box stored at `k`. -/
def setRefInner (t : STarget) (k : PKey) (v : JSVal) : STarget :=
  { t with
    entries := t.entries.map (fun p =>
      if p.1 == k then
        (p.1,
          match p.2 with
          | .refV i ro _ => .refV i ro v
          | x => x)
      else p) }

/-- The trigger kinds a setter can fire. -/
inductive Fired where
  | ADD
  | SET
deriving DecidableEq, Repr

/-- Result of a set trap invocation: the trap's return value, the resulting
target, and which trigger kind (if any) was fired. -/
structure SetResult where
  returned : Bool
  tgt : STarget
  fired : Option Fired
deriving DecidableEq, Repr

/-- Source `createSetter()` (deep mutable setter, `shallow = false`) on the
canonical-receiver path (`target === toRaw(receiver)`), over the raw-value
domain:
1. read the old value;
2. a read-only ref old value with a non-ref incoming value rejects the write;
3. deep mode unwraps the old and new value to raws (identity here) unless the
   incoming value is shallow or read-only;
4. on a non-array target, a ref old value with a non-ref new value redirects
   the write into the box and fires nothing;
5. otherwise compute `hadKey`, perform the write, and fire ADD when the key
   was absent, SET when it was present and the value changed per
   `hasChanged`, and nothing otherwise. -/
def mutableSet (t : STarget) (k : PKey) (v : JSVal) : SetResult :=
  let oldValue := getOwnV t k
  if isReadonlyV oldValue && isRefV oldValue && !isRefV v then
    ⟨false, t, none⟩
  else
    let oldValue1 := if !isShallowV v && !isReadonlyV v then toRawV oldValue else oldValue
    let v1 := if !isShallowV v && !isReadonlyV v then toRawV v else v
    if !t.isArr && isRefV oldValue1 && !isRefV v1 then
      ⟨true, setRefInner t k v1, none⟩
    else
      let hadKey := hadKeyB t k
      let t1 := rawWrite t k v1
      ⟨true, t1, if !hadKey then some .ADD else if hasChanged v1 oldValue1 then some .SET else none⟩

/-- `String(key)` for warning messages. -/
def pkeyRepr : PKey → String
  | .str s => s
  | .sym i => "Symbol(" ++ toString i ++ ")"

/-- Source `readonlyHandlers.set`: warn in dev builds, touch nothing, report
success.  Result: (trap return value, resulting target, emitted warnings). -/
def readonlySetTrap (dev : Bool) (t : STarget) (k : PKey) : Bool × STarget × List String :=
  (true, t,
    if dev then ["Set operation on key " ++ pkeyRepr k ++ " failed: target is readonly."]
    else [])

/-- Source `readonlyHandlers.deleteProperty`: warn in dev builds, touch
nothing, report success. -/
def readonlyDeleteTrap (dev : Bool) (t : STarget) (k : PKey) : Bool × STarget × List String :=
  (true, t,
    if dev then ["Delete operation on key " ++ pkeyRepr k ++ " failed: target is readonly."]
    else [])

/-- Source `TriggerOpTypes` (`operations.ts`). -/
inductive TriggerOp where
  | SET
  | ADD
  | DELETE
  | CLEAR
deriving DecidableEq, Repr

/-- Source `ITERATE_KEY`: the reserved generic-iteration sentinel symbol. -/
def ITERATE_KEY : PKey := .sym 0

/-- Source `MAP_KEY_ITERATE_KEY`: the reserved map-key-iteration sentinel symbol. -/
def MAP_KEY_ITERATE_KEY : PKey := .sym 1

/-- `depsMap.get(key)`: look up the dependency set (represented by its id)
registered at a key.  `entries` is the per-object key-to-dep map, in
insertion order. -/
def lookupDep (entries : List (PKey × Nat)) (k : PKey) : Option Nat :=
  (entries.find? (fun p => p.1 == k)).map (fun p => p.2)

/-- JS `Number(s)` on key strings, modelled for unsigned decimal digit
strings (canonical indices and leading-zero forms), exact for values at
most `2 ^ 53`.  Other strings are treated as NaN here, although JS coerces
some of them to numbers (`""` to 0, signed/whitespace/exponent/fractional
forms); such keys are outside the modelled coercion domain, and the
selection theorem that relies on this coercion restricts the dep-map keys
by hypothesis to digit strings and the length key. -/
def strToNum (s : String) : Option Int :=
  match strDigits? s with
  | some n => some (Int.ofNat n)
  | none => none

/-- JS `Number(v)` for the `newValue` argument of `trigger`, restricted to
the values that can reach the length branch; non-numeric values coerce to
NaN (`none`). -/
def jsNumber : JSVal → Option Int
  | .num n => some n
  | .negZero => some 0
  | .boolV b => some (if b then 1 else 0)
  | .nullV => some 0
  | .str s => strToNum s
  | _ => none

/-- The JS comparison `key >= newLength` for a string key: both sides are
numerically coerced and any NaN makes the comparison false. -/
def keyGeNum (s : String) (nl : Option Int) : Bool :=
  match strToNum s, nl with
  | some a, some b => decide (b ≤ a)
  | _, _ => false

/-- The array-length branch of `trigger`:
`depsMap.forEach((dep, key) => { if (key === 'length' || key >= newLength) deps.push(dep) })`.
A symbol key that reaches the `>=` comparison raises a TypeError in JS,
modelled as `Except.error`. -/
def lengthSelect (nl : Option Int) : List (PKey × Nat) → Except Unit (List Nat)
  | [] => .ok []
  | (k, d) :: rest =>
    if k = PKey.str "length" then
      (lengthSelect nl rest).map (fun r => d :: r)
    else
      match k with
      | .sym _ => .error ()
      | .str s =>
        if keyGeNum s nl then (lengthSelect nl rest).map (fun r => d :: r)
        else lengthSelect nl rest

/-- Source `trigger` (effect module), dependency-set selection: given the
target's array/map classification, its key-to-dep map, the operation kind,
the key and the new value, compute the list of selected dependency sets (by
id, in push order).  `deps.push(depsMap.get(key))` pushes `undefined` for
absent keys, which the execution stage skips; the model collects only the
found sets, preserving order. -/
def triggerSelect (isArr isMapT : Bool) (entries : List (PKey × Nat))
    (ty : TriggerOp) (key : Option PKey) (newValue : JSVal) : Except Unit (List Nat) :=
  if ty = .CLEAR then
    .ok (entries.map (fun p => p.2))
  else if key = some (PKey.str "length") && isArr then
    lengthSelect (jsNumber newValue) entries
  else
    let deps0 : List Nat :=
      match key with
      | some k => (lookupDep entries k).toList
      | none => []
    let extra : List Nat :=
      match ty with
      | .ADD =>
        if !isArr then
          (lookupDep entries ITERATE_KEY).toList ++
            (if isMapT then (lookupDep entries MAP_KEY_ITERATE_KEY).toList else [])
        else if (match key with | some k => isIntegerKeyP k | none => false) then
          (lookupDep entries (PKey.str "length")).toList
        else []
      | .DELETE =>
        if !isArr then
          (lookupDep entries ITERATE_KEY).toList ++
            (if isMapT then (lookupDep entries MAP_KEY_ITERATE_KEY).toList else [])
        else []
      | .SET => if isMapT then (lookupDep entries ITERATE_KEY).toList else []
      | .CLEAR => []
    .ok (deps0 ++ extra)

/-- An effect as seen by the trigger execution stage: identity, the
truthiness of its `computed` marker, of its `scheduler`, and its
`allowRecurse` flag. -/
structure REff where
  eid : Nat
  isComputed : Bool
  hasSched : Bool
  allowRecurse : Bool
deriving DecidableEq, Repr

/-- One observable action of the trigger execution stage: invoking an
effect's scheduler, or running it directly. -/
inductive Invok where
  | sched (e : REff)
  | runE (e : REff)
deriving DecidableEq, Repr

/-- The effect an invocation concerns. -/
def invEff : Invok → REff
  | .sched e => e
  | .runE e => e

/-- Source `triggerEffect`: skip when the effect is the active effect and
recursion is not allowed; otherwise invoke the scheduler when present, else
run directly. -/
def triggerEffect1 (acti : Option REff) (e : REff) : List Invok :=
  if acti != some e || e.allowRecurse then
    [if e.hasSched then .sched e else .runE e]
  else []

/-- Source `triggerEffects`: run every `computed`-tagged effect of the
(stabilized) list first, then every non-`computed` effect. -/
def triggerEffects (acti : Option REff) (effects : List REff) : List Invok :=
  (effects.filter (fun e => e.isComputed)).flatMap (triggerEffect1 acti) ++
    (effects.filter (fun e => !e.isComputed)).flatMap (triggerEffect1 acti)

/-- JS `new Set(l)` spread back to an array: keep the first occurrence of
each element, in order. -/
def jsSetList (l : List REff) : List REff :=
  l.foldl (fun acc x => if x ∈ acc then acc else acc ++ [x]) []

/-- The execution stage at the end of source `trigger`: a single found
dependency set is passed to `triggerEffects` directly (a `Dep` is already a
`Set`); otherwise the found sets are concatenated and deduplicated through
`createDep(effects)` (a JS `Set`). -/
def triggerRun (acti : Option REff) (deps : List (Option (List REff))) : List Invok :=
  match deps with
  | [some d] => triggerEffects acti d
  | [none] => []
  | _ => triggerEffects acti (jsSetList (deps.filterMap id).flatten)

/-- Claim C7: for every read-only wrapper and every key, a write attempt and
a delete attempt leave the underlying target unchanged, report success (the
trap returns `true`), and emit a developer warning (in dev builds) rather
than throwing. -/
theorem c7_readonly_write_delete_noop (dev : Bool) (t : STarget) (k : PKey) :
    (readonlySetTrap dev t k).1 = true
    ∧ (readonlySetTrap dev t k).2.1 = t
    ∧ ((readonlySetTrap dev t k).2.2 = [] ↔ dev = false)
    ∧ (readonlyDeleteTrap dev t k).1 = true
    ∧ (readonlyDeleteTrap dev t k).2.1 = t
    ∧ ((readonlyDeleteTrap dev t k).2.2 = [] ↔ dev = false) := by
  unfold readonlySetTrap readonlyDeleteTrap
  cases dev <;> simp

/-- Claim C2 (counterexample): a write through the mutable set trap on an
existing key of a non-array target whose current value is a (non-read-only)
ref-like box, with a differing plain incoming value, returns `true` but
fires no trigger at all: the key exists, the new value differs from the old
one under SameValue comparison, yet no SET trigger is fired (the write is
redirected into the box). -/
theorem c2_counterexample :
    (mutableSet ⟨false, 0, [(.str "r", .refV 0 false (.num 0))]⟩ (.str "r") (.num 5)).fired = none
    ∧ (mutableSet ⟨false, 0, [(.str "r", .refV 0 false (.num 0))]⟩ (.str "r") (.num 5)).returned = true
    ∧ hadKeyB ⟨false, 0, [(.str "r", .refV 0 false (.num 0))]⟩ (.str "r") = true
    ∧ hasChanged (.num 5)
        (getOwnV ⟨false, 0, [(.str "r", .refV 0 false (.num 0))]⟩ (.str "r")) = true := by
  refine ⟨rfl, rfl, rfl, rfl⟩

/-- Characterization of what the deep mutable setter fires, away from the
two source guards: the read-only-ref rejection (line 234) and the
non-array ref redirect (line 245).  In particular an array element holding
a non-read-only ref box written a plain value falls through and fires per
`hasChanged`. -/
theorem mutableSet_fired_eq (t : STarget) (k : PKey) (v : JSVal)
    (hro : ¬(isReadonlyV (getOwnV t k) = true ∧ isRefV (getOwnV t k) = true ∧ isRefV v = false))
    (hred : ¬(t.isArr = false ∧ isRefV (getOwnV t k) = true ∧ isRefV v = false)) :
    (mutableSet t k v).fired =
      (if hadKeyB t k then
        (if hasChanged v (getOwnV t k) then some Fired.SET else none)
      else some Fired.ADD) := by
  cases hre : isRefV (getOwnV t k) with
  | true =>
    cases hrv : isRefV v with
    | false =>
      have harr : t.isArr = true := by
        cases h : t.isArr with
        | false => exact absurd ⟨h, hre, hrv⟩ hred
        | true => rfl
      have hrof : isReadonlyV (getOwnV t k) = false := by
        cases h : isReadonlyV (getOwnV t k) with
        | true => exact absurd ⟨h, hre, hrv⟩ hro
        | false => rfl
      simp only [mutableSet, hre, hrv, harr, hrof, isShallowV, toRawV, id_eq,
        Bool.not_true, Bool.not_false, Bool.true_and, Bool.and_true, Bool.and_false,
        Bool.false_and, Bool.and_self, ite_self, Bool.false_eq_true, if_false]
      cases hK : hadKeyB t k <;> simp [hK]
    | true =>
      simp only [mutableSet, hre, hrv, isShallowV, toRawV, id_eq, Bool.not_true,
        Bool.not_false, Bool.true_and, Bool.and_false, Bool.false_and, ite_self,
        Bool.false_eq_true, if_false]
      cases hK : hadKeyB t k <;> simp
  | false =>
    simp only [mutableSet, hre, isShallowV, toRawV, id_eq, Bool.not_false,
      Bool.true_and, Bool.and_false, Bool.false_and, ite_self,
      Bool.false_eq_true, if_false]
    cases hK : hadKeyB t k <;> simp

/-- Claim C2 (amended): for every write through the mutable (deep) set trap
with canonical receiver and a key in the modelled numeric-key domain,
except in exactly the two guarded cases — a read-only ref-box old value
with a non-ref incoming value (write rejected), and, on a non-array target
only, a ref-box old value with a non-ref incoming value (write redirected
into the box) — ADD is fired iff the key did not previously exist, and SET
is fired iff the key existed and the value actually changed under SameValue
comparison, which treats NaN as equal to itself and distinguishes signed
zeros.  An array element holding a non-read-only ref box written a plain
value is covered: it fires SET per `hasChanged`. -/
theorem c2_set_add_fire (t : STarget) (k : PKey) (v : JSVal)
    (hro : ¬(isReadonlyV (getOwnV t k) = true ∧ isRefV (getOwnV t k) = true ∧ isRefV v = false))
    (hred : ¬(t.isArr = false ∧ isRefV (getOwnV t k) = true ∧ isRefV v = false))
    (hdom : inModelDom k = true) :
    ((mutableSet t k v).fired = some Fired.ADD ↔ hadKeyB t k = false)
    ∧ ((mutableSet t k v).fired = some Fired.SET
        ↔ (hadKeyB t k = true ∧ hasChanged v (getOwnV t k) = true))
    ∧ hasChanged JSVal.nan JSVal.nan = false
    ∧ hasChanged JSVal.negZero (JSVal.num 0) = true := by
  rw [mutableSet_fired_eq t k v hro hred]
  refine ⟨?_, ?_, by decide, by decide⟩ <;>
    cases hK : hadKeyB t k <;> cases hC : hasChanged v (getOwnV t k) <;> simp [hK, hC]

/-- Witness for claim C2 (amended) at a concrete input: an array of length 1
whose element 0 holds a non-read-only ref box, written with a plain number —
the case the non-array redirect does not reach. -/
theorem c2_set_add_fire_witness :
    ((mutableSet ⟨true, 1, [(.str "0", .refV 0 false (.num 1))]⟩ (.str "0") (.num 5)).fired
        = some Fired.ADD
        ↔ hadKeyB ⟨true, 1, [(.str "0", .refV 0 false (.num 1))]⟩ (.str "0") = false)
    ∧ ((mutableSet ⟨true, 1, [(.str "0", .refV 0 false (.num 1))]⟩ (.str "0") (.num 5)).fired
        = some Fired.SET
        ↔ (hadKeyB ⟨true, 1, [(.str "0", .refV 0 false (.num 1))]⟩ (.str "0") = true
            ∧ hasChanged (.num 5)
                (getOwnV ⟨true, 1, [(.str "0", .refV 0 false (.num 1))]⟩ (.str "0")) = true))
    ∧ hasChanged JSVal.nan JSVal.nan = false
    ∧ hasChanged JSVal.negZero (JSVal.num 0) = true :=
  c2_set_add_fire ⟨true, 1, [(.str "0", .refV 0 false (.num 1))]⟩ (.str "0") (.num 5)
    (by decide) (by decide) (by decide)

/-- Claim C10: when the existing value at the key is a read-only ref-like box
and the incoming value is not a ref-like box, the mutable set trap returns
`false`, performs no write and fires no trigger. -/
theorem c10_readonly_ref_guard (t : STarget) (k : PKey) (v : JSVal)
    (hro : isReadonlyV (getOwnV t k) = true) (href : isRefV (getOwnV t k) = true)
    (hv : isRefV v = false) :
    mutableSet t k v = ⟨false, t, none⟩ := by
  unfold mutableSet
  simp [hro, href, hv]

/-- Witness for claim C10 at a concrete input: an object whose key `r` holds
a read-only ref box, written with a plain number. -/
theorem c10_readonly_ref_guard_witness :
    isReadonlyV (getOwnV ⟨false, 0, [(.str "r", .refV 0 true (.num 0))]⟩ (.str "r")) = true
    ∧ mutableSet ⟨false, 0, [(.str "r", .refV 0 true (.num 0))]⟩ (.str "r") (.num 5)
        = ⟨false, ⟨false, 0, [(.str "r", .refV 0 true (.num 0))]⟩, none⟩ :=
  ⟨by decide,
    c10_readonly_ref_guard ⟨false, 0, [(.str "r", .refV 0 true (.num 0))]⟩ (.str "r") (.num 5)
      (by decide) (by decide) (by decide)⟩

/-- Claim C3 (counterexample): on an array target, a trigger at the length
key with new length `0` selects, besides the length set and the set of
element index `0`, also the set registered at the key `"00"` — a key that is
neither the length key nor a valid element-index key (`isIntegerKey` rejects
it), because the source compares `key >= newLength` under JS numeric
coercion. -/
theorem c3_counterexample :
    triggerSelect true false [(.str "length", 0), (.str "0", 1), (.str "00", 2)] .SET
        (some (.str "length")) (.num 0) = .ok [0, 1, 2]
    ∧ isIntegerKeyP (.str "00") = false
    ∧ PKey.str "00" ≠ PKey.str "length" := by
  refine ⟨by rfl, by decide, by decide⟩

/-- The length branch of `trigger` on a string-keyed dep map is the filter by
`key === 'length' || key >= newLength`. -/
theorem lengthSelect_strings (nl : Option Int) (entries : List (PKey × Nat))
    (hstr : ∀ p ∈ entries, ∃ s, p.1 = PKey.str s) :
    lengthSelect nl entries
      = .ok ((entries.filter (fun p =>
          p.1 == PKey.str "length" ||
            (match p.1 with | .str s => keyGeNum s nl | .sym _ => false))).map (fun p => p.2)) := by
  induction entries with
  | nil => rfl
  | cons hd tl ih =>
    obtain ⟨s, hs⟩ := hstr hd (List.mem_cons_self hd tl)
    have htl : ∀ p ∈ tl, ∃ u, p.1 = PKey.str u :=
      fun p hp => hstr p (List.mem_cons_of_mem hd hp)
    obtain ⟨k, d⟩ := hd
    simp only at hs
    subst hs
    by_cases hlen : s = "length"
    · subst hlen
      simp [lengthSelect, ih htl, Except.map]
    · by_cases hge : keyGeNum s nl = true
      · simp [lengthSelect, hlen, hge, ih htl, Except.map]
      · simp [lengthSelect, hlen, hge, ih htl, Except.map]

/-- Claim C3 (amended): for every array target whose dep-map keys are the
length key or unsigned decimal digit strings of value at most `2 ^ 53`
(the domain on which the modelled JS numeric coercion is exact), a trigger
whose key is the length sentinel and whose new length is an integer of
magnitude at most `2 ^ 53` selects exactly the sets whose key is `length`
or whose key's numeric value is at least the new length — that is, every
element-index set with index at least the new length, but also sets at
non-canonical numeric keys such as `"00"`; canonical index keys are
selected precisely when their index is at least the new length. -/
theorem c3_length_trigger (m : Bool) (entries : List (PKey × Nat)) (N : Int)
    (hkeys : ∀ p ∈ entries, ∃ s, p.1 = PKey.str s ∧
        (s = "length" ∨ ∃ n, strDigits? s = some n ∧ n ≤ 2 ^ 53))
    (hN : N.natAbs ≤ 2 ^ 53) :
    triggerSelect true m entries .SET (some (.str "length")) (.num N)
      = .ok ((entries.filter (fun p =>
          p.1 == PKey.str "length" ||
            (match p.1 with | .str s => keyGeNum s (some N) | .sym _ => false))).map (fun p => p.2))
    ∧ ∀ (s : String) (n : Nat), strDigits? s = some n →
        keyGeNum s (some N) = decide (N ≤ (n : Int)) := by
  constructor
  · have hstr : ∀ p ∈ entries, ∃ s, p.1 = PKey.str s := by
      intro p hp
      obtain ⟨s, hs, _⟩ := hkeys p hp
      exact ⟨s, hs⟩
    have h1 : triggerSelect true m entries .SET (some (.str "length")) (.num N)
        = lengthSelect (some N) entries := by
      simp [triggerSelect, jsNumber]
    rw [h1, lengthSelect_strings (some N) entries hstr]
  · intro s n hn
    simp [keyGeNum, strToNum, hn]

/-- Witness for claim C3 (amended) at a concrete input: dep map with keys
`length`, `1` and `5`, new length `3`. -/
theorem c3_length_trigger_witness :
    triggerSelect true false [(.str "length", 0), (.str "1", 1), (.str "5", 2)] .SET
        (some (.str "length")) (.num 3)
      = .ok (([(.str "length", 0), (.str "1", 1), (.str "5", 2)].filter
          (fun p : PKey × Nat =>
            p.1 == PKey.str "length" ||
              (match p.1 with | .str s => keyGeNum s (some 3) | .sym _ => false))).map
          (fun p => p.2))
    ∧ ∀ (s : String) (n : Nat), strDigits? s = some n →
        keyGeNum s (some 3) = decide ((3 : Int) ≤ (n : Int)) :=
  c3_length_trigger false [(.str "length", 0), (.str "1", 1), (.str "5", 2)] 3
    (by
      intro p hp
      rcases hp with _ | ⟨_, hp⟩
      · exact ⟨"length", rfl, Or.inl rfl⟩
      rcases hp with _ | ⟨_, hp⟩
      · exact ⟨"1", rfl, Or.inr ⟨1, rfl, by norm_num⟩⟩
      rcases hp with _ | ⟨_, hp⟩
      · exact ⟨"5", rfl, Or.inr ⟨5, rfl, by norm_num⟩⟩
      cases hp)
    (by norm_num)

/-- Claim C9 (counterexample): on an array target, a trigger of kind ADD at
the key `length` — a defined key that is not a valid integer index — does
not select only that key's own set: it takes the length branch and also
selects the element-index set `0` (new length `0`). -/
theorem c9_counterexample :
    triggerSelect true false [(.str "length", 0), (.str "0", 1)] .ADD
        (some (.str "length")) (.num 0) = .ok [0, 1]
    ∧ isIntegerKeyP (.str "length") = false := by
  exact ⟨by rfl, by decide⟩

/-- Claim C9 (amended): for every array target, a trigger of kind ADD whose
key is defined, lies in the modelled key domain (symbols, non-digit
strings, and digit strings of value at most `2 ^ 53` — where the source's
`isIntegerKey` classification is modelled exactly), is not a valid integer
index and is not the length sentinel selects only the dependency set of
that key itself — in particular neither the generic-iteration sentinel set
nor the length slot's set is added. -/
theorem c9_add_nonindex_key (isMapT : Bool) (entries : List (PKey × Nat)) (k : PKey) (nv : JSVal)
    (hk : isIntegerKeyP k = false) (hlen : k ≠ PKey.str "length")
    (hdom : inModelDom k = true) :
    triggerSelect true isMapT entries .ADD (some k) nv = .ok ((lookupDep entries k).toList) := by
  simp [triggerSelect, hk, hlen]

/-- Witness for claim C9 (amended) at a concrete input: ADD at the non-index
string key `foo` of an array whose dep map also has a `length` set. -/
theorem c9_add_nonindex_key_witness :
    triggerSelect true false [(.str "foo", 5), (.str "length", 0)] .ADD
        (some (.str "foo")) .undef
      = .ok ((lookupDep [(.str "foo", 5), (.str "length", 0)] (.str "foo")).toList) :=
  c9_add_nonindex_key false [(.str "foo", 5), (.str "length", 0)] (.str "foo") .undef
    (by decide) (by decide) (by decide)

/-- Every invocation produced by `triggerEffect` concerns the effect it was
called with. -/
theorem triggerEffect1_eff (acti : Option REff) (e : REff) :
    ∀ i ∈ triggerEffect1 acti e, invEff i = e := by
  intro i hi
  unfold triggerEffect1 at hi
  by_cases hc : (acti != some e || e.allowRecurse) = true
  · rw [if_pos hc] at hi
    simp only [List.mem_singleton] at hi
    subst hi
    cases he : e.hasSched <;> simp [he, invEff]
  · rw [if_neg hc] at hi
    cases hi

/-- Every invocation in a flat-mapped `triggerEffect` pass concerns a member
of the effect list. -/
theorem flatMap_trigger_mem (acti : Option REff) (l : List REff) :
    ∀ i ∈ l.flatMap (triggerEffect1 acti), invEff i ∈ l := by
  intro i hi
  rcases List.mem_flatMap.mp hi with ⟨x, hx, hix⟩
  rw [triggerEffect1_eff acti x i hix]
  exact hx

/-- An effect outside the list is never invoked by a `triggerEffect` pass. -/
theorem count_flatMap_zero (acti : Option REff) (l : List REff) (e : REff) (he : e ∉ l) :
    ((l.flatMap (triggerEffect1 acti)).map invEff).count e = 0 := by
  rw [List.count_eq_zero]
  intro hmem
  rcases List.mem_map.mp hmem with ⟨i, hi, hie⟩
  exact he (hie ▸ flatMap_trigger_mem acti l i hi)

/-- A `triggerEffect` pass over a duplicate-free list invokes each effect at
most once. -/
theorem count_flatMap_le_one (acti : Option REff) (l : List REff) (hl : l.Nodup) (e : REff) :
    ((l.flatMap (triggerEffect1 acti)).map invEff).count e ≤ 1 := by
  induction l with
  | nil => simp
  | cons x xs ih =>
    have hx : x ∉ xs := (List.nodup_cons.mp hl).1
    have hxs : xs.Nodup := (List.nodup_cons.mp hl).2
    rw [List.flatMap_cons, List.map_append, List.count_append]
    by_cases hex : e = x
    · subst hex
      have h2 : ((xs.flatMap (triggerEffect1 acti)).map invEff).count e = 0 :=
        count_flatMap_zero acti xs e hx
      have h1 : ((triggerEffect1 acti e).map invEff).count e ≤ 1 := by
        unfold triggerEffect1
        by_cases hc : (acti != some e || e.allowRecurse) = true
        · rw [if_pos hc]
          cases e.hasSched <;> simp [invEff, List.count_cons]
        · rw [if_neg hc]
          simp
      omega
    · have h1 : ((triggerEffect1 acti x).map invEff).count e = 0 := by
        rw [List.count_eq_zero]
        intro hmem
        rcases List.mem_map.mp hmem with ⟨i, hi, hie⟩
        have hxe : x = e := (triggerEffect1_eff acti x i hi).symm.trans hie
        exact hex hxe.symm
      have h2 := ih hxs
      omega

/-- The contract of `triggerEffects` over a duplicate-free effect list: each
effect is invoked at most once, and the invocation sequence splits into a
computed-only prefix followed by a non-computed-only suffix. -/
theorem triggerEffects_main (acti : Option REff) (l : List REff) (hl : l.Nodup) :
    (∀ e : REff, ((triggerEffects acti l).map invEff).count e ≤ 1)
    ∧ ∃ xs ys, triggerEffects acti l = xs ++ ys
        ∧ (∀ i ∈ xs, (invEff i).isComputed = true)
        ∧ (∀ i ∈ ys, (invEff i).isComputed = false) := by
  constructor
  · intro e
    unfold triggerEffects
    rw [List.map_append, List.count_append]
    by_cases hce : e.isComputed = true
    · have h2 : (((l.filter (fun x => !x.isComputed)).flatMap (triggerEffect1 acti)).map invEff).count e = 0 := by
        apply count_flatMap_zero
        intro hmem
        have := List.of_mem_filter hmem
        rw [hce] at this
        cases this
      have h1 := count_flatMap_le_one acti (l.filter (fun x => x.isComputed))
        (List.Nodup.filter _ hl) e
      omega
    · have h1 : (((l.filter (fun x => x.isComputed)).flatMap (triggerEffect1 acti)).map invEff).count e = 0 := by
        apply count_flatMap_zero
        intro hmem
        exact hce (List.of_mem_filter hmem)
      have h2 := count_flatMap_le_one acti (l.filter (fun x => !x.isComputed))
        (List.Nodup.filter _ hl) e
      omega
  · refine ⟨(l.filter (fun x => x.isComputed)).flatMap (triggerEffect1 acti),
      (l.filter (fun x => !x.isComputed)).flatMap (triggerEffect1 acti), ?_, ?_, ?_⟩
    · rfl
    · intro i hi
      rcases List.mem_flatMap.mp hi with ⟨x, hx, hix⟩
      rw [triggerEffect1_eff acti x i hix]
      exact List.of_mem_filter hx
    · intro i hi
      rcases List.mem_flatMap.mp hi with ⟨x, hx, hix⟩
      rw [triggerEffect1_eff acti x i hix]
      have := List.of_mem_filter hx
      cases hxc : x.isComputed
      · rfl
      · rw [hxc] at this
        cases this

/-- Spreading a JS `Set` built from a list yields a duplicate-free list. -/
theorem jsSetList_nodup (l : List REff) : (jsSetList l).Nodup := by
  have key : ∀ (l : List REff) (acc : List REff), acc.Nodup →
      (l.foldl (fun acc x => if x ∈ acc then acc else acc ++ [x]) acc).Nodup := by
    intro l
    induction l with
    | nil => intro acc h; exact h
    | cons x xs ih =>
      intro acc hacc
      simp only [List.foldl_cons]
      by_cases hx : x ∈ acc
      · rw [if_pos hx]
        exact ih acc hacc
      · rw [if_neg hx]
        apply ih
        rw [List.nodup_append]
        exact ⟨hacc, List.nodup_singleton x, by
          intro a ha hax
          simp only [List.mem_singleton] at hax
          exact hx (hax ▸ ha)⟩
  exact key l [] List.nodup_nil

/-- Claim C1: for every trigger invocation over a non-empty list of selected
dependency sets (each a JS `Set`, hence duplicate-free), each subscribed
effect is run — or its scheduler invoked — at most once, even when it
occurs in several selected sets, and every computed-tagged invocation
happens strictly before every non-computed invocation: the invocation
sequence is a computed-only block followed by a non-computed-only block. -/
theorem c1_trigger_dedup_ordered (acti : Option REff) (deps : List (Option (List REff)))
    (hne : deps ≠ [])
    (hnd : ∀ d ∈ deps, ∀ l, d = some l → l.Nodup) :
    (∀ e : REff, ((triggerRun acti deps).map invEff).count e ≤ 1)
    ∧ ∃ xs ys, triggerRun acti deps = xs ++ ys
        ∧ (∀ i ∈ xs, (invEff i).isComputed = true)
        ∧ (∀ i ∈ ys, (invEff i).isComputed = false) := by
  match deps with
  | [] => exact absurd rfl hne
  | [some d] =>
    have hd : d.Nodup := hnd (some d) (List.mem_singleton_self _) d rfl
    have h := triggerEffects_main acti d hd
    exact ⟨fun e => h.1 e, h.2⟩
  | [none] =>
    refine ⟨fun e => by simp [triggerRun], [], [], by simp [triggerRun], ?_, ?_⟩ <;>
      intro i hi <;> cases hi
  | d1 :: d2 :: rest =>
    have hrun : triggerRun acti (d1 :: d2 :: rest)
        = triggerEffects acti (jsSetList ((d1 :: d2 :: rest).filterMap id).flatten) := by
      cases d1 <;> rfl
    have h := triggerEffects_main acti _ (jsSetList_nodup ((d1 :: d2 :: rest).filterMap id).flatten)
    rw [hrun]
    exact ⟨fun e => h.1 e, h.2⟩

/-- Witness for claim C1 at a concrete input: two overlapping dependency
sets holding a plain effect and a computed effect. -/
theorem c1_trigger_dedup_ordered_witness :
    (∀ e : REff,
      ((triggerRun none
          [some [⟨1, false, false, false⟩],
            some [⟨2, true, true, false⟩, ⟨1, false, false, false⟩]]).map invEff).count e ≤ 1)
    ∧ ∃ xs ys,
        triggerRun none
          [some [⟨1, false, false, false⟩],
            some [⟨2, true, true, false⟩, ⟨1, false, false, false⟩]] = xs ++ ys
        ∧ (∀ i ∈ xs, (invEff i).isComputed = true)
        ∧ (∀ i ∈ ys, (invEff i).isComputed = false) :=
  c1_trigger_dedup_ordered none
    [some [⟨1, false, false, false⟩], some [⟨2, true, true, false⟩, ⟨1, false, false, false⟩]]
    (by decide)
    (by
      intro d hd l hl
      rcases hd with _ | ⟨_, hd⟩
      · cases hl; decide
      rcases hd with _ | ⟨_, hd⟩
      · cases hl; decide
      cases hd)

/-- The mutable per-effect fields of `ReactiveEffect` relevant to `stop`:
the `active` flag, the private `deferStop` flag, and the effect's own list
of subscribed dependency sets (by slot id). -/
structure Eff6 where
  active : Bool
  deferStop : Bool
  deps : List Nat
deriving DecidableEq, Repr

/-- The state `stop` operates on: the effect's record, for each slot whether
the effect is a member of that slot's dependency set, and whether the
global `activeEffect` register currently holds this effect. -/
structure Sys6 where
  eff : Eff6
  world : Nat → Bool
  activeIsE : Bool

/-- Source `cleanupEffect`: delete the effect from every dependency set in
its list, then empty the list. -/
def cleanupEffect6 (sys : Sys6) : Sys6 :=
  { sys with
    world := sys.eff.deps.foldl (fun w s => Function.update w s false) sys.world
    eff := { sys.eff with deps := [] } }

/-- Source `ReactiveEffect.stop`: when the effect is the currently-executing
one, only set `deferStop`; otherwise, when still active, clean up and mark
inactive (the `onStop` debug hook is omitted). -/
def stop6 (sys : Sys6) : Sys6 :=
  if sys.activeIsE then
    { sys with eff := { sys.eff with deferStop := true } }
  else if sys.eff.active then
    let sys1 := cleanupEffect6 sys
    { sys1 with eff := { sys1.eff with active := false } }
  else sys

/-- The tail of `ReactiveEffect.run`'s `finally` block: the active-effect
register is restored to the parent (never this effect, by the recursion
guard), and a pending `deferStop` performs the deferred `stop`. -/
def runExit6 (sys : Sys6) : Sys6 :=
  let sys1 : Sys6 := { sys with activeIsE := false }
  if sys1.eff.deferStop then stop6 sys1 else sys1

/-- Deleting the effect from every set listed in `l` leaves it in no set,
provided `l` covered its memberships. -/
theorem foldl_update_false (l : List Nat) (w : Nat → Bool)
    (hcov : ∀ s, w s = true → s ∈ l) :
    ∀ s, (l.foldl (fun w s => Function.update w s false) w) s = false := by
  have key : ∀ (l : List Nat) (w : Nat → Bool) (s : Nat),
      (l.foldl (fun w s => Function.update w s false) w) s = false ∨
        ((l.foldl (fun w s => Function.update w s false) w) s = w s ∧ s ∉ l) := by
    intro l
    induction l with
    | nil => intro w s; right; exact ⟨rfl, fun h => by cases h⟩
    | cons x xs ih =>
      intro w s
      simp only [List.foldl_cons]
      rcases ih (Function.update w x false) s with h | ⟨heq, hmem⟩
      · left; exact h
      · by_cases hsx : s = x
        · subst hsx
          left
          rw [heq, Function.update_same]
        · right
          refine ⟨heq.trans (Function.update_noteq hsx false w), ?_⟩
          intro hc
          rcases hc with _ | ⟨_, hc⟩
          · exact hsx rfl
          · exact hmem hc
  intro s
  rcases key l w s with h | ⟨heq, hmem⟩
  · exact h
  · rcases hw : w s with _ | _
    · exact heq.trans hw
    · exact absurd (hcov s hw) hmem

/-- Claim C6: for every active effect, `stop` called while the effect is not
the currently-executing one immediately removes it from every dependency
set, empties its own dependency list and marks it inactive; `stop` called
while it is the currently-executing one changes nothing except setting the
deferred-stop flag, and the deferred cleanup then happens at run exit. -/
theorem c6_stop_semantics (sys : Sys6)
    (hact : sys.eff.active = true)
    (hcov : ∀ s, sys.world s = true → s ∈ sys.eff.deps) :
    (sys.activeIsE = false →
      (∀ s, (stop6 sys).world s = false)
      ∧ (stop6 sys).eff.deps = []
      ∧ (stop6 sys).eff.active = false)
    ∧ (sys.activeIsE = true →
      (stop6 sys).world = sys.world
      ∧ (stop6 sys).eff.deps = sys.eff.deps
      ∧ (stop6 sys).eff.active = sys.eff.active
      ∧ (stop6 sys).eff.deferStop = true
      ∧ (∀ s, (runExit6 (stop6 sys)).world s = false)
      ∧ (runExit6 (stop6 sys)).eff.deps = []
      ∧ (runExit6 (stop6 sys)).eff.active = false) := by
  obtain ⟨⟨a, df, dl⟩, w, aie⟩ := sys
  change a = true at hact
  change ∀ s, w s = true → s ∈ dl at hcov
  subst hact
  constructor
  · intro hae
    change aie = false at hae
    subst hae
    have h1 : stop6 ⟨⟨true, df, dl⟩, w, false⟩
        = ⟨⟨false, df, []⟩, dl.foldl (fun w s => Function.update w s false) w, false⟩ := by
      simp [stop6, cleanupEffect6]
    rw [h1]
    exact ⟨foldl_update_false dl w hcov, rfl, rfl⟩
  · intro hae
    change aie = true at hae
    subst hae
    have h1 : stop6 ⟨⟨true, df, dl⟩, w, true⟩ = ⟨⟨true, true, dl⟩, w, true⟩ := by
      simp [stop6]
    have h2 : runExit6 ⟨⟨true, true, dl⟩, w, true⟩
        = ⟨⟨false, true, []⟩, dl.foldl (fun w s => Function.update w s false) w, false⟩ := by
      simp [runExit6, stop6, cleanupEffect6]
    rw [h1, h2]
    exact ⟨rfl, rfl, rfl, rfl, foldl_update_false dl w hcov, rfl, rfl⟩

/-- Witness for claim C6 at a concrete input: an active effect subscribed to
slots 1 and 2, stopped from outside and from inside. -/
theorem c6_stop_semantics_witness :
    ((⟨⟨true, false, [1, 2]⟩, fun s => decide (s = 1 ∨ s = 2), false⟩ : Sys6).activeIsE = false →
      (∀ s, (stop6 ⟨⟨true, false, [1, 2]⟩, fun s => decide (s = 1 ∨ s = 2), false⟩).world s = false)
      ∧ (stop6 ⟨⟨true, false, [1, 2]⟩, fun s => decide (s = 1 ∨ s = 2), false⟩).eff.deps = []
      ∧ (stop6 ⟨⟨true, false, [1, 2]⟩, fun s => decide (s = 1 ∨ s = 2), false⟩).eff.active = false)
    ∧ ((⟨⟨true, false, [1, 2]⟩, fun s => decide (s = 1 ∨ s = 2), false⟩ : Sys6).activeIsE = true →
      (stop6 ⟨⟨true, false, [1, 2]⟩, fun s => decide (s = 1 ∨ s = 2), false⟩).world
          = (fun s => decide (s = 1 ∨ s = 2))
      ∧ (stop6 ⟨⟨true, false, [1, 2]⟩, fun s => decide (s = 1 ∨ s = 2), false⟩).eff.deps = [1, 2]
      ∧ (stop6 ⟨⟨true, false, [1, 2]⟩, fun s => decide (s = 1 ∨ s = 2), false⟩).eff.active
          = (⟨⟨true, false, [1, 2]⟩, fun s => decide (s = 1 ∨ s = 2), false⟩ : Sys6).eff.active
      ∧ (stop6 ⟨⟨true, false, [1, 2]⟩, fun s => decide (s = 1 ∨ s = 2), false⟩).eff.deferStop = true
      ∧ (∀ s, (runExit6 (stop6 ⟨⟨true, false, [1, 2]⟩, fun s => decide (s = 1 ∨ s = 2), false⟩)).world s
          = false)
      ∧ (runExit6 (stop6 ⟨⟨true, false, [1, 2]⟩, fun s => decide (s = 1 ∨ s = 2), false⟩)).eff.deps = []
      ∧ (runExit6 (stop6 ⟨⟨true, false, [1, 2]⟩, fun s => decide (s = 1 ∨ s = 2), false⟩)).eff.active
          = false) :=
  c6_stop_semantics ⟨⟨true, false, [1, 2]⟩, fun s => decide (s = 1 ∨ s = 2), false⟩ rfl
    (by
      intro s hs
      have : (s = 1 ∨ s = 2) := of_decide_eq_true hs
      rcases this with h | h <;> subst h <;> simp)

/-- The 32-bit all-ones mask: JS bitwise operators work on 32-bit integers,
so `~trackOpBit` is `mask32 ^^^ trackOpBit` on the values that occur. -/
def mask32 : Nat := 2 ^ 32 - 1

/-- A dependency set as seen by one fixed effect: whether that effect is a
member (`dep.has(effect)` / `dep.add` / `dep.delete`), and the two tracking
bitmasks `w` (`wasTracked`) and `n` (`newTracked`).  A never-created dep
behaves like `createDep()`'s result for these observations. -/
structure DepM where
  hasE : Bool
  w : Nat
  n : Nat
deriving DecidableEq, Repr

/-- Source `wasTracked`: `(dep.w & trackOpBit) > 0`. -/
def wasTrackedM (bit : Nat) (d : DepM) : Bool := decide (0 < d.w &&& bit)

/-- Source `newTracked`: `(dep.n & trackOpBit) > 0`. -/
def newTrackedM (bit : Nat) (d : DepM) : Bool := decide (0 < d.n &&& bit)

/-- The state of one effect's run: for every slot id the slot's dependency
set (as observed by this effect), and the effect's own `deps` list (slot
ids, in push order). -/
structure EffSt where
  world : Nat → DepM
  deps : List Nat

/-- Source `initDepMarkers`: set the `wasTracked` bit on every dependency
set in the effect's list. -/
def initDepMarkersM (bit : Nat) (st : EffSt) : EffSt :=
  { st with
    world := st.deps.foldl
      (fun wr s => Function.update wr s
        { hasE := (wr s).hasE, w := (wr s).w ||| bit, n := (wr s).n }) st.world }

/-- Source `track`/`trackEffects` for one read at recursion depth within the
marker limit: if the set is not newly tracked, mark it newly tracked and,
when it was not previously tracked either, add the effect to the set and
push the set onto the effect's list. -/
def trackOneM (bit : Nat) (st : EffSt) (s : Nat) : EffSt :=
  if !newTrackedM bit (st.world s) then
    if !wasTrackedM bit
        { hasE := (st.world s).hasE, w := (st.world s).w, n := (st.world s).n ||| bit } then
      { world := Function.update st.world s
          { hasE := true, w := (st.world s).w, n := (st.world s).n ||| bit },
        deps := st.deps ++ [s] }
    else
      { st with
        world := Function.update st.world s
          { hasE := (st.world s).hasE, w := (st.world s).w, n := (st.world s).n ||| bit } }
  else st

/-- Source `finalizeDepMarkers`: walk the effect's list; delete the effect
from sets that were tracked but not re-tracked this run, compact the list
to the surviving sets, and clear both marker bits on every visited set. -/
def finalizeDepMarkersM (bit : Nat) (st : EffSt) : EffSt :=
  let r := st.deps.foldl
    (fun (acc : (Nat → DepM) × List Nat) s =>
      let d := acc.1 s
      let stale := wasTrackedM bit d && !newTrackedM bit d
      let d1 : DepM :=
        { hasE := if stale then false else d.hasE
          w := d.w &&& (mask32 ^^^ bit)
          n := d.n &&& (mask32 ^^^ bit) }
      (Function.update acc.1 s d1, if stale then acc.2 else acc.2 ++ [s]))
    (st.world, [])
  ⟨r.1, r.2⟩

/-- Source `ReactiveEffect.run`, tracked path at depth within the marker
limit: mark prior subscriptions, perform the run's reads in order, then
finalize. -/
def runBitM (bit : Nat) (st : EffSt) (reads : List Nat) : EffSt :=
  finalizeDepMarkersM bit (reads.foldl (trackOneM bit) (initDepMarkersM bit st))

/-- Source `cleanupEffect`: delete the effect from every set in its list and
empty the list. -/
def cleanupEffectFullM (st : EffSt) : EffSt :=
  { world := st.deps.foldl
      (fun wr s => Function.update wr s
        { hasE := false, w := (wr s).w, n := (wr s).n }) st.world
    deps := [] }

/-- Source `trackEffects`, full-cleanup branch (depth beyond the marker
limit): `shouldTrack = !dep.has(activeEffect)`; add and push when absent. -/
def trackOneFullM (st : EffSt) (s : Nat) : EffSt :=
  if !(st.world s).hasE then
    { world := Function.update st.world s
        { hasE := true, w := (st.world s).w, n := (st.world s).n },
      deps := st.deps ++ [s] }
  else st

/-- Source `ReactiveEffect.run`, depth beyond the marker limit: a full
cleanup on entry, reads tracked in full-cleanup mode, and no finalize pass
on exit. -/
def runFullM (st : EffSt) (reads : List Nat) : EffSt :=
  reads.foldl trackOneFullM (cleanupEffectFullM st)

/-- Outcome of invoking `ReactiveEffect.run`: the computation ran with
tracking, ran without tracking (`!this.active` path), or was skipped by the
ancestor guard. -/
inductive RunOutcome where
  | execTracked
  | execUntracked
  | skipped
deriving DecidableEq, Repr

/-- Source `ReactiveEffect.run`, entry dispatch: an inactive effect runs its
computation with no tracking registered for it; an active effect found on
the parent chain starting at the active effect (the chain is given as a
list, acyclic by construction) returns silently; otherwise the tracked body
runs. -/
def runGuardM (bit : Nat) (active : Bool) (chain : List Nat) (eid : Nat)
    (st : EffSt) (reads : List Nat) : EffSt × RunOutcome :=
  if active = false then (st, .execUntracked)
  else if eid ∈ chain then (st, .skipped)
  else (runBitM bit st reads, .execTracked)

/-- A power of two and-ed with itself is positive. -/
theorem land_self_pos (d : Nat) : 0 < 2 ^ d &&& 2 ^ d := by
  have h : 2 ^ d &&& 2 ^ d = 2 ^ d := by simp
  rw [h]
  exact Nat.pos_pow_of_pos d (by norm_num)

/-- Clearing a bit that is not set leaves zero. -/
theorem zero_land_any (m : Nat) : 0 &&& m = 0 := by simp

/-- Clearing the tracked bit of a word that holds exactly that bit gives
zero: `b & ~b = 0` in 32-bit arithmetic for a bit below the width. -/
theorem land_mask_xor_self (dpt : Nat) (hd : dpt < 32) :
    2 ^ dpt &&& (mask32 ^^^ 2 ^ dpt) = 0 := by
  apply Nat.eq_of_testBit_eq
  intro i
  simp only [Nat.testBit_land, Nat.testBit_xor, Nat.zero_testBit, Nat.testBit_two_pow]
  unfold mask32
  rw [Nat.testBit_two_pow_sub_one]
  by_cases hi : dpt = i
  · subst hi
    simp [hd]
  · simp [hi]

/-- One pass of per-slot updates over a duplicate-free slot list applies the
per-slot transformation exactly to the listed slots. -/
theorem foldl_update_gen (f : DepM → DepM) (l : List Nat) (hl : l.Nodup) :
    ∀ (w0 : Nat → DepM) (s : Nat),
      (l.foldl (fun wr t => Function.update wr t (f (wr t))) w0) s
        = if s ∈ l then f (w0 s) else w0 s := by
  induction l with
  | nil => intro w0 s; simp
  | cons x xs ih =>
    intro w0 s
    have hx : x ∉ xs := (List.nodup_cons.mp hl).1
    have hxs : xs.Nodup := (List.nodup_cons.mp hl).2
    simp only [List.foldl_cons]
    rw [ih hxs]
    by_cases hsx : s = x
    · subst hsx
      have hsnotxs : s ∉ xs := hx
      rw [if_neg hsnotxs, Function.update_same, if_pos (List.mem_cons_self s xs)]
    · rw [Function.update_noteq hsx]
      by_cases hsxs : s ∈ xs
      · rw [if_pos hsxs, if_pos (List.mem_cons_of_mem x hsxs)]
      · rw [if_neg hsxs, if_neg (by
          intro hc
          rcases List.mem_cons.mp hc with h | h
          · exact hsx h
          · exact hsxs h)]

/-- The world component of the finalize fold evolves independently of the
compacted-list component. -/
theorem finalize_fold_fst (bit : Nat) (l : List Nat) :
    ∀ (w0 : Nat → DepM) (L0 : List Nat),
      (l.foldl
        (fun (acc : (Nat → DepM) × List Nat) s =>
          let d := acc.1 s
          let stale := wasTrackedM bit d && !newTrackedM bit d
          let d1 : DepM :=
            { hasE := if stale then false else d.hasE
              w := d.w &&& (mask32 ^^^ bit)
              n := d.n &&& (mask32 ^^^ bit) }
          (Function.update acc.1 s d1, if stale then acc.2 else acc.2 ++ [s]))
        (w0, L0)).1
      = l.foldl
          (fun wr t =>
            Function.update wr t
              { hasE := if wasTrackedM bit (wr t) && !newTrackedM bit (wr t) then false
                        else (wr t).hasE
                w := (wr t).w &&& (mask32 ^^^ bit)
                n := (wr t).n &&& (mask32 ^^^ bit) })
          w0 := by
  induction l with
  | nil => intro w0 L0; rfl
  | cons x xs ih =>
    intro w0 L0
    simp only [List.foldl_cons]
    exact ih _ _

/-- Mid-run invariant of the bitmask subscription algorithm: after the reads
`rs` of the current run (previous subscriptions `deps0`, current track bit),
the effect's list holds exactly the old and the newly-read slots, without
duplicates, and every slot's dependency set holds the effect iff the slot is
old or read, with the `wasTracked` bit exactly on old slots and the
`newTracked` bit exactly on read slots. -/
def TrackInv (bit : Nat) (deps0 rs : List Nat) (st : EffSt) : Prop :=
  (∀ t, t ∈ st.deps ↔ (t ∈ deps0 ∨ t ∈ rs))
  ∧ st.deps.Nodup
  ∧ ∀ s, st.world s
      = ⟨decide (s ∈ deps0 ∨ s ∈ rs),
         if s ∈ deps0 then bit else 0,
         if s ∈ rs then bit else 0⟩

/-- Reduction of `trackOneM` when the set is already newly tracked. -/
theorem trackOneM_skip (bit : Nat) (st : EffSt) (r : Nat)
    (h : newTrackedM bit (st.world r) = true) :
    trackOneM bit st r = st := by
  unfold trackOneM
  rw [h]
  rfl

/-- Reduction of `trackOneM` when the set is not newly tracked but was
tracked before: only the `newTracked` bit is set. -/
theorem trackOneM_mark (bit : Nat) (st : EffSt) (r : Nat)
    (h : newTrackedM bit (st.world r) = false)
    (h2 : wasTrackedM bit
      { hasE := (st.world r).hasE, w := (st.world r).w, n := (st.world r).n ||| bit } = true) :
    trackOneM bit st r
      = { st with
          world := Function.update st.world r
            { hasE := (st.world r).hasE, w := (st.world r).w, n := (st.world r).n ||| bit } } := by
  unfold trackOneM
  rw [h, h2]
  rfl

/-- Reduction of `trackOneM` when the set is neither newly nor previously
tracked: the effect subscribes and pushes the set. -/
theorem trackOneM_add (bit : Nat) (st : EffSt) (r : Nat)
    (h : newTrackedM bit (st.world r) = false)
    (h2 : wasTrackedM bit
      { hasE := (st.world r).hasE, w := (st.world r).w, n := (st.world r).n ||| bit } = false) :
    trackOneM bit st r
      = { world := Function.update st.world r
            { hasE := true, w := (st.world r).w, n := (st.world r).n ||| bit },
          deps := st.deps ++ [r] } := by
  unfold trackOneM
  rw [h, h2]
  rfl

/-- One tracked read preserves the mid-run invariant, extending the read
list. -/
theorem trackOneM_inv (d0 : Nat) (deps0 rs : List Nat) (st : EffSt) (r : Nat)
    (hinv : TrackInv (2 ^ d0) deps0 rs st) :
    TrackInv (2 ^ d0) deps0 (rs ++ [r]) (trackOneM (2 ^ d0) st r) := by
  obtain ⟨hmem, hnd, hworld⟩ := hinv
  have hz : ∀ m : Nat, ¬(0 < 0 &&& m) := by
    intro m h
    rw [zero_land_any m] at h
    exact Nat.lt_irrefl 0 h
  have hpos := land_self_pos d0
  have hiffr : ∀ s : Nat, s ∈ rs ++ [r] ↔ (s ∈ rs ∨ s = r) := by
    intro s
    rw [List.mem_append, List.mem_singleton]
  by_cases hr : r ∈ rs
  · have hn : newTrackedM (2 ^ d0) (st.world r) = true := by
      rw [hworld r]
      unfold newTrackedM
      dsimp only
      rw [if_pos hr]
      exact decide_eq_true hpos
    rw [trackOneM_skip (2 ^ d0) st r hn]
    have hiff : ∀ s : Nat, s ∈ rs ++ [r] ↔ s ∈ rs := by
      intro s
      rw [hiffr s]
      constructor
      · rintro (h | h)
        · exact h
        · exact h ▸ hr
      · intro h
        exact Or.inl h
    refine ⟨?_, hnd, ?_⟩
    · intro t
      rw [hmem t, hiff t]
    · intro s
      rw [hworld s]
      simp only [hiff]
  · have hn : newTrackedM (2 ^ d0) (st.world r) = false := by
      rw [hworld r]
      unfold newTrackedM
      dsimp only
      rw [if_neg hr]
      exact decide_eq_false (hz _)
    by_cases hr0 : r ∈ deps0
    · have h2 : wasTrackedM (2 ^ d0)
          { hasE := (st.world r).hasE, w := (st.world r).w,
            n := (st.world r).n ||| 2 ^ d0 } = true := by
        unfold wasTrackedM
        rw [hworld r]
        dsimp only
        rw [if_pos hr0]
        exact decide_eq_true hpos
      rw [trackOneM_mark (2 ^ d0) st r hn h2]
      have hval : ({ hasE := (st.world r).hasE, w := (st.world r).w, n := (st.world r).n ||| 2 ^ d0 } : DepM)
          = ⟨decide (r ∈ deps0 ∨ r ∈ rs ++ [r]),
              if r ∈ deps0 then 2 ^ d0 else 0,
              if r ∈ rs ++ [r] then 2 ^ d0 else 0⟩ := by
        rw [hworld r]
        dsimp only
        congr 1
        · rw [decide_eq_decide]
          rw [hiffr r]
          constructor
          · rintro (h | h)
            · exact Or.inl h
            · exact Or.inr (Or.inl h)
          · rintro (h | h | h)
            · exact Or.inl h
            · exact Or.inr h
            · exact Or.inl hr0
        · rw [if_neg hr, Nat.zero_or, if_pos (by rw [hiffr r]; exact Or.inr rfl)]
      rw [hval]
      refine ⟨?_, hnd, ?_⟩
      · intro t
        dsimp only
        rw [hmem t]
        rw [hiffr t]
        constructor
        · rintro (h | h)
          · exact Or.inl h
          · exact Or.inr (Or.inl h)
        · rintro (h | h | h)
          · exact Or.inl h
          · exact Or.inr h
          · exact Or.inl (h ▸ hr0)
      · intro s
        dsimp only
        by_cases hsr : s = r
        · subst hsr
          rw [Function.update_same]
        · rw [Function.update_noteq hsr, hworld s]
          have h1 : (s ∈ rs ++ [r]) = (s ∈ rs) := by
            apply propext
            rw [hiffr s]
            constructor
            · rintro (h | h)
              · exact h
              · exact absurd h hsr
            · intro h
              exact Or.inl h
          simp only [h1]
    · have h2 : wasTrackedM (2 ^ d0)
          { hasE := (st.world r).hasE, w := (st.world r).w,
            n := (st.world r).n ||| 2 ^ d0 } = false := by
        unfold wasTrackedM
        rw [hworld r]
        dsimp only
        rw [if_neg hr0]
        exact decide_eq_false (hz _)
      rw [trackOneM_add (2 ^ d0) st r hn h2]
      have hval : ({ hasE := true, w := (st.world r).w, n := (st.world r).n ||| 2 ^ d0 } : DepM)
          = ⟨decide (r ∈ deps0 ∨ r ∈ rs ++ [r]),
              if r ∈ deps0 then 2 ^ d0 else 0,
              if r ∈ rs ++ [r] then 2 ^ d0 else 0⟩ := by
        rw [hworld r]
        dsimp only
        congr 1
        · symm
          apply decide_eq_true
          exact Or.inr (by rw [hiffr r]; exact Or.inr rfl)
        · rw [if_neg hr, Nat.zero_or, if_pos (by rw [hiffr r]; exact Or.inr rfl)]
      rw [hval]
      refine ⟨?_, ?_, ?_⟩
      · intro t
        dsimp only
        rw [List.mem_append, List.mem_singleton, hmem t, hiffr t]
        constructor
        · rintro ((h | h) | h)
          · exact Or.inl h
          · exact Or.inr (Or.inl h)
          · exact Or.inr (Or.inr h)
        · rintro (h | h | h)
          · exact Or.inl (Or.inl h)
          · exact Or.inl (Or.inr h)
          · exact Or.inr h
      · dsimp only
        rw [List.nodup_append]
        refine ⟨hnd, List.nodup_singleton r, ?_⟩
        intro a ha hax
        rw [List.mem_singleton] at hax
        subst hax
        rw [hmem a] at ha
        rcases ha with h | h
        · exact hr0 h
        · exact hr h
      · intro s
        dsimp only
        by_cases hsr : s = r
        · subst hsr
          rw [Function.update_same]
        · rw [Function.update_noteq hsr, hworld s]
          have h1 : (s ∈ rs ++ [r]) = (s ∈ rs) := by
            apply propext
            rw [hiffr s]
            constructor
            · rintro (h | h)
              · exact h
              · exact absurd h hsr
            · intro h
              exact Or.inl h
          simp only [h1]

/-- The whole read phase of a run preserves the mid-run invariant. -/
theorem trackFold_inv (d0 : Nat) (deps0 : List Nat) (reads : List Nat) :
    ∀ (rs : List Nat) (st : EffSt), TrackInv (2 ^ d0) deps0 rs st →
      TrackInv (2 ^ d0) deps0 (rs ++ reads) (reads.foldl (trackOneM (2 ^ d0)) st) := by
  induction reads with
  | nil =>
    intro rs st h
    simpa using h
  | cons r rest ih =>
    intro rs st h
    have h1 := trackOneM_inv d0 deps0 rs st r h
    have h2 := ih (rs ++ [r]) _ h1
    have heq : rs ++ [r] ++ rest = rs ++ r :: rest := by simp
    rw [heq] at h2
    rw [List.foldl_cons]
    exact h2

/-- The mid-run invariant holds right after `initDepMarkers` when the run
starts from a clean, consistent state. -/
theorem trackInv_init (d0 : Nat) (st : EffSt)
    (hw : ∀ s, (st.world s).w = 0) (hn : ∀ s, (st.world s).n = 0)
    (hcons : ∀ s, (st.world s).hasE = decide (s ∈ st.deps))
    (hnd : st.deps.Nodup) :
    TrackInv (2 ^ d0) st.deps [] (initDepMarkersM (2 ^ d0) st) := by
  refine ⟨?_, hnd, ?_⟩
  · intro t
    simp [initDepMarkersM]
  · intro s
    show (st.deps.foldl
      (fun wr t => Function.update wr t
        { hasE := (wr t).hasE, w := (wr t).w ||| 2 ^ d0, n := (wr t).n }) st.world) s = _
    rw [foldl_update_gen
      (fun d => { hasE := d.hasE, w := d.w ||| 2 ^ d0, n := d.n }) st.deps hnd st.world s]
    have hsw : st.world s = ⟨decide (s ∈ st.deps), 0, 0⟩ := by
      have hx : st.world s = ⟨(st.world s).hasE, (st.world s).w, (st.world s).n⟩ := rfl
      rw [hx, hcons s, hw s, hn s]
    by_cases hs : s ∈ st.deps
    · rw [if_pos hs, hsw]
      have h1 : decide (s ∈ st.deps) = decide (s ∈ st.deps ∨ s ∈ ([] : List Nat)) := by
        rw [decide_eq_decide]
        constructor
        · exact Or.inl
        · rintro (h | h)
          · exact h
          · cases h
      rw [if_pos hs]
      have h2 : s ∈ ([] : List Nat) ↔ False := by simp
      rw [if_neg (by simp), Nat.zero_or, h1]
    · rw [if_neg hs, hsw]
      rw [if_neg hs, if_neg (by simp)]
      have h1 : decide (s ∈ st.deps) = decide (s ∈ st.deps ∨ s ∈ ([] : List Nat)) := by
        rw [decide_eq_decide]
        constructor
        · exact Or.inl
        · rintro (h | h)
          · exact h
          · cases h
      rw [h1]

/-- `finalizeDepMarkers` turns the mid-run invariant at the end of the reads
into the run-exit state: the effect is a member exactly at the read slots,
and both marker bits are cleared everywhere. -/
theorem finalize_world (d0 : Nat) (hd : d0 < 32) (deps0 reads : List Nat) (st : EffSt)
    (hinv : TrackInv (2 ^ d0) deps0 reads st) :
    ∀ s, (finalizeDepMarkersM (2 ^ d0) st).world s = ⟨decide (s ∈ reads), 0, 0⟩ := by
  obtain ⟨hmem, hnd, hworld⟩ := hinv
  have hz : ∀ m : Nat, ¬(0 < 0 &&& m) := by
    intro m h
    rw [zero_land_any m] at h
    exact Nat.lt_irrefl 0 h
  have hpos := land_self_pos d0
  have hclr := land_mask_xor_self d0 hd
  intro s
  show ((st.deps.foldl
      (fun (acc : (Nat → DepM) × List Nat) t =>
        let d := acc.1 t
        let stale := wasTrackedM (2 ^ d0) d && !newTrackedM (2 ^ d0) d
        let d1 : DepM :=
          { hasE := if stale then false else d.hasE
            w := d.w &&& (mask32 ^^^ 2 ^ d0)
            n := d.n &&& (mask32 ^^^ 2 ^ d0) }
        (Function.update acc.1 t d1, if stale then acc.2 else acc.2 ++ [t]))
      (st.world, [])).1) s = _
  rw [finalize_fold_fst (2 ^ d0) st.deps st.world []]
  rw [foldl_update_gen
    (fun d => { hasE := if wasTrackedM (2 ^ d0) d && !newTrackedM (2 ^ d0) d then false
                        else d.hasE
                w := d.w &&& (mask32 ^^^ 2 ^ d0)
                n := d.n &&& (mask32 ^^^ 2 ^ d0) }) st.deps hnd st.world s]
  by_cases hs : s ∈ st.deps
  · rw [if_pos hs, hworld s]
    have hwas : wasTrackedM (2 ^ d0)
        ⟨decide (s ∈ deps0 ∨ s ∈ reads), if s ∈ deps0 then 2 ^ d0 else 0,
          if s ∈ reads then 2 ^ d0 else 0⟩ = decide (s ∈ deps0) := by
      unfold wasTrackedM
      dsimp only
      by_cases h0 : s ∈ deps0
      · rw [if_pos h0, decide_eq_true hpos, decide_eq_true h0]
      · rw [if_neg h0, decide_eq_false (hz _), decide_eq_false h0]
    have hnew : newTrackedM (2 ^ d0)
        ⟨decide (s ∈ deps0 ∨ s ∈ reads), if s ∈ deps0 then 2 ^ d0 else 0,
          if s ∈ reads then 2 ^ d0 else 0⟩ = decide (s ∈ reads) := by
      unfold newTrackedM
      dsimp only
      by_cases h0 : s ∈ reads
      · rw [if_pos h0, decide_eq_true h0, decide_eq_true hpos]
      · rw [if_neg h0, decide_eq_false (hz _), decide_eq_false h0]
    dsimp only
    rw [hwas, hnew]
    by_cases h0 : s ∈ deps0 <;> by_cases h1 : s ∈ reads <;>
      simp [h0, h1, hclr, zero_land_any]
  · rw [if_neg hs, hworld s]
    have hns : ¬(s ∈ deps0 ∨ s ∈ reads) := by
      intro h
      exact hs ((hmem s).mpr h)
    have h0 : s ∉ deps0 := fun h => hns (Or.inl h)
    have h1 : s ∉ reads := fun h => hns (Or.inr h)
    rw [if_neg h0, if_neg h1, decide_eq_false hns, decide_eq_false h1]

/-- Run-exit characterization of the bitmask strategy: starting from a
clean, consistent state, after a full run the effect is a member of a
slot's dependency set exactly when the run read that slot, and the marker
bits are clean again. -/
theorem runBitM_world (d0 : Nat) (hd : d0 < 32) (st : EffSt) (reads : List Nat)
    (hw : ∀ s, (st.world s).w = 0) (hn : ∀ s, (st.world s).n = 0)
    (hcons : ∀ s, (st.world s).hasE = decide (s ∈ st.deps))
    (hnd : st.deps.Nodup) :
    ∀ s, (runBitM (2 ^ d0) st reads).world s = ⟨decide (s ∈ reads), 0, 0⟩ := by
  have h0 := trackInv_init d0 st hw hn hcons hnd
  have h1 := trackFold_inv d0 st.deps reads [] (initDepMarkersM (2 ^ d0) st) h0
  rw [List.nil_append] at h1
  exact finalize_world d0 hd st.deps reads _ h1

/-- Every invocation of a single-set trigger concerns a member of that set. -/
theorem triggerRun_single_mem (acti : Option REff) (dl : List REff) :
    ∀ i ∈ triggerRun acti [some dl], invEff i ∈ dl := by
  intro i hi
  have hrun : triggerRun acti [some dl] = triggerEffects acti dl := rfl
  rw [hrun] at hi
  unfold triggerEffects at hi
  rcases List.mem_append.mp hi with h | h
  · exact List.mem_of_mem_filter (flatMap_trigger_mem acti _ i h)
  · exact List.mem_of_mem_filter (flatMap_trigger_mem acti _ i h)

/-- Claim C4: at nesting depth within the bitmask limit, after a tracked run
of an effect completes from a clean consistent state, the effect is a
member of a slot's dependency set iff that run read the slot; in particular
a slot read in the previous run but not in this one loses the effect at run
exit, and a subsequent trigger of a dependency set not holding the effect
never invokes it. -/
theorem c4_membership_iff_read (d0 : Nat) (st : EffSt) (reads : List Nat)
    (hd1 : 1 ≤ d0) (hd30 : d0 ≤ 30)
    (hw : ∀ s, (st.world s).w = 0) (hn : ∀ s, (st.world s).n = 0)
    (hcons : ∀ s, (st.world s).hasE = decide (s ∈ st.deps))
    (hnd : st.deps.Nodup) :
    (∀ s, ((runBitM (2 ^ d0) st reads).world s).hasE = true ↔ s ∈ reads)
    ∧ (∀ s, s ∈ st.deps → s ∉ reads → ((runBitM (2 ^ d0) st reads).world s).hasE = false)
    ∧ (∀ (acti : Option REff) (E : REff) (dl : List REff),
        (∀ x ∈ dl, x ≠ E) → ∀ i ∈ triggerRun acti [some dl], invEff i ≠ E) := by
  have hd : d0 < 32 := by omega
  have hall := runBitM_world d0 hd st reads hw hn hcons hnd
  refine ⟨?_, ?_, ?_⟩
  · intro s
    rw [hall s]
    constructor
    · intro h
      exact of_decide_eq_true h
    · intro h
      exact decide_eq_true h
  · intro s hs hns
    rw [hall s]
    exact decide_eq_false hns
  · intro acti E dl hne i hi
    intro hcontra
    exact hne (invEff i) (triggerRun_single_mem acti dl i hi) hcontra

/-- Witness for claim C4 at a concrete input: previous subscriptions at
slots 1 and 2, this run reads slots 2 and 3, depth 1. -/
theorem c4_membership_iff_read_witness :
    (∀ s, ((runBitM (2 ^ 1) ⟨fun s => ⟨decide (s = 1 ∨ s = 2), 0, 0⟩, [1, 2]⟩ [2, 3]).world s).hasE
        = true ↔ s ∈ [2, 3])
    ∧ (∀ s, s ∈ ([1, 2] : List Nat) → s ∉ ([2, 3] : List Nat) →
        ((runBitM (2 ^ 1) ⟨fun s => ⟨decide (s = 1 ∨ s = 2), 0, 0⟩, [1, 2]⟩ [2, 3]).world s).hasE
          = false)
    ∧ (∀ (acti : Option REff) (E : REff) (dl : List REff),
        (∀ x ∈ dl, x ≠ E) → ∀ i ∈ triggerRun acti [some dl], invEff i ≠ E) :=
  c4_membership_iff_read 1 ⟨fun s => ⟨decide (s = 1 ∨ s = 2), 0, 0⟩, [1, 2]⟩ [2, 3]
    (by norm_num) (by norm_num)
    (fun s => rfl) (fun s => rfl)
    (by
      intro s
      show decide (s = 1 ∨ s = 2) = decide (s ∈ [1, 2])
      rw [decide_eq_decide]
      simp)
    (by decide)

/-- Mid-run invariant of the full-cleanup strategy: after reads `rs`, the
effect's list holds exactly the read slots and the effect is a member
exactly of the read slots' sets. -/
def FullInv (rs : List Nat) (st : EffSt) : Prop :=
  (∀ t, t ∈ st.deps ↔ t ∈ rs)
  ∧ st.deps.Nodup
  ∧ ∀ s, (st.world s).hasE = decide (s ∈ rs)

/-- One full-cleanup-mode read preserves the invariant. -/
theorem trackOneFullM_inv (rs : List Nat) (st : EffSt) (r : Nat)
    (hinv : FullInv rs st) :
    FullInv (rs ++ [r]) (trackOneFullM st r) := by
  obtain ⟨hmem, hnd, hworld⟩ := hinv
  have hiffr : ∀ s : Nat, s ∈ rs ++ [r] ↔ (s ∈ rs ∨ s = r) := by
    intro s
    rw [List.mem_append, List.mem_singleton]
  by_cases hr : r ∈ rs
  · have hE : (st.world r).hasE = true := by
      rw [hworld r]
      exact decide_eq_true hr
    have heq : trackOneFullM st r = st := by
      unfold trackOneFullM
      rw [hE]
      rfl
    rw [heq]
    have hiff : ∀ s : Nat, s ∈ rs ++ [r] ↔ s ∈ rs := by
      intro s
      rw [hiffr s]
      constructor
      · rintro (h | h)
        · exact h
        · exact h ▸ hr
      · intro h
        exact Or.inl h
    refine ⟨?_, hnd, ?_⟩
    · intro t
      rw [hmem t, hiff t]
    · intro s
      rw [hworld s]
      simp only [hiff]
  · have hE : (st.world r).hasE = false := by
      rw [hworld r]
      exact decide_eq_false hr
    have heq : trackOneFullM st r
        = { world := Function.update st.world r
              { hasE := true, w := (st.world r).w, n := (st.world r).n }
            deps := st.deps ++ [r] } := by
      unfold trackOneFullM
      rw [hE]
      rfl
    rw [heq]
    refine ⟨?_, ?_, ?_⟩
    · intro t
      dsimp only
      rw [List.mem_append, List.mem_singleton, hmem t, hiffr t]
    · dsimp only
      rw [List.nodup_append]
      refine ⟨hnd, List.nodup_singleton r, ?_⟩
      intro a ha hax
      rw [List.mem_singleton] at hax
      subst hax
      exact hr ((hmem a).mp ha)
    · intro s
      dsimp only
      by_cases hsr : s = r
      · subst hsr
        rw [Function.update_same]
        exact (decide_eq_true (by rw [hiffr s]; exact Or.inr rfl)).symm
      · rw [Function.update_noteq hsr, hworld s]
        have h1 : (s ∈ rs ++ [r]) = (s ∈ rs) := by
          apply propext
          rw [hiffr s]
          constructor
          · rintro (h | h)
            · exact h
            · exact absurd h hsr
          · intro h
            exact Or.inl h
        simp only [h1]

/-- The whole read phase in full-cleanup mode preserves the invariant. -/
theorem trackFoldFull_inv (reads : List Nat) :
    ∀ (rs : List Nat) (st : EffSt), FullInv rs st →
      FullInv (rs ++ reads) (reads.foldl trackOneFullM st) := by
  induction reads with
  | nil =>
    intro rs st h
    simpa using h
  | cons r rest ih =>
    intro rs st h
    have h1 := trackOneFullM_inv rs st r h
    have h2 := ih (rs ++ [r]) _ h1
    have heq : rs ++ [r] ++ rest = rs ++ r :: rest := by simp
    rw [heq] at h2
    rw [List.foldl_cons]
    exact h2

/-- The cleanup pass at the start of an overflow-depth run establishes the
invariant for the empty read list. -/
theorem cleanupFull_inv (st : EffSt)
    (hcons : ∀ s, (st.world s).hasE = decide (s ∈ st.deps))
    (hnd : st.deps.Nodup) :
    FullInv [] (cleanupEffectFullM st) := by
  refine ⟨?_, List.nodup_nil, ?_⟩
  · intro t
    simp [cleanupEffectFullM]
  · intro s
    show (st.deps.foldl
      (fun wr t => Function.update wr t
        { hasE := false, w := (wr t).w, n := (wr t).n }) st.world s).hasE = _
    rw [foldl_update_gen
      (fun d => { hasE := false, w := d.w, n := d.n }) st.deps hnd st.world s]
    by_cases hs : s ∈ st.deps
    · rw [if_pos hs]
      exact (decide_eq_false (by intro h; cases h)).symm
    · rw [if_neg hs, hcons s, decide_eq_false hs, Eq.comm, decide_eq_false_iff_not]
      intro h
      cases h

/-- Claim C5: when a run's nesting depth exceeds the marker-bit limit the
engine falls back to the full-cleanup strategy — unsubscribe from every
previously-subscribed set, then rebuild subscriptions from this run's reads
— and the dependency-set memberships at run exit are pointwise the same as
the bitmask strategy produces for the same read sequence: membership
exactly at the read slots. -/
theorem c5_overflow_fallback_equiv (d0 : Nat) (st : EffSt) (reads : List Nat)
    (hd1 : 1 ≤ d0) (hd30 : d0 ≤ 30)
    (hw : ∀ s, (st.world s).w = 0) (hn : ∀ s, (st.world s).n = 0)
    (hcons : ∀ s, (st.world s).hasE = decide (s ∈ st.deps))
    (hnd : st.deps.Nodup) :
    (∀ s, ((runFullM st reads).world s).hasE = ((runBitM (2 ^ d0) st reads).world s).hasE)
    ∧ (∀ s, ((runFullM st reads).world s).hasE = true ↔ s ∈ reads) := by
  have hd : d0 < 32 := by omega
  have hbit := runBitM_world d0 hd st reads hw hn hcons hnd
  have h0 := cleanupFull_inv st hcons hnd
  have h1 := trackFoldFull_inv reads [] (cleanupEffectFullM st) h0
  rw [List.nil_append] at h1
  obtain ⟨hmem1, hnd1, hworld1⟩ := h1
  have hfull : ∀ s, ((runFullM st reads).world s).hasE = decide (s ∈ reads) := hworld1
  constructor
  · intro s
    rw [hfull s, hbit s]
  · intro s
    rw [hfull s]
    constructor
    · exact of_decide_eq_true
    · exact decide_eq_true

/-- Witness for claim C5 at a concrete input: previous subscriptions at
slots 1 and 2, reads 2 and 3, compared against bitmask depth 1. -/
theorem c5_overflow_fallback_equiv_witness :
    (∀ s, ((runFullM ⟨fun s => ⟨decide (s = 1 ∨ s = 2), 0, 0⟩, [1, 2]⟩ [2, 3]).world s).hasE
        = ((runBitM (2 ^ 1) ⟨fun s => ⟨decide (s = 1 ∨ s = 2), 0, 0⟩, [1, 2]⟩ [2, 3]).world s).hasE)
    ∧ (∀ s, ((runFullM ⟨fun s => ⟨decide (s = 1 ∨ s = 2), 0, 0⟩, [1, 2]⟩ [2, 3]).world s).hasE
        = true ↔ s ∈ [2, 3]) :=
  c5_overflow_fallback_equiv 1 ⟨fun s => ⟨decide (s = 1 ∨ s = 2), 0, 0⟩, [1, 2]⟩ [2, 3]
    (by norm_num) (by norm_num)
    (fun s => rfl) (fun s => rfl)
    (by
      intro s
      show decide (s = 1 ∨ s = 2) = decide (s ∈ [1, 2])
      rw [decide_eq_decide]
      simp)
    (by decide)

/-- Claim C8 (counterexample): an effect that has been stopped (`active`
false) but still sits on the parent chain — reachable by stopping a mid-run
effect from a nested effect and invoking its runner again — does run its
computation: the `!active` early path returns `fn()` before the ancestor
guard is consulted, so the run is not skipped. -/
theorem c8_counterexample :
    (runGuardM (2 ^ 1) false [7] 7 ⟨fun _ => ⟨false, 0, 0⟩, []⟩ [5]).2 = RunOutcome.execUntracked
    ∧ (7 ∈ [7])
    ∧ RunOutcome.execUntracked ≠ RunOutcome.skipped := by
  refine ⟨rfl, by decide, by decide⟩

/-- Claim C8 (amended): for every active effect that already appears on the
parent chain starting at the currently-active effect, invoking `run`
returns silently: the computation is not executed and no tracking state is
modified. -/
theorem c8_ancestor_guard (bit : Nat) (active : Bool) (chain : List Nat) (eid : Nat)
    (st : EffSt) (reads : List Nat)
    (hact : active = true) (hmem : eid ∈ chain) :
    runGuardM bit active chain eid st reads = (st, RunOutcome.skipped) := by
  subst hact
  unfold runGuardM
  rw [if_neg (by simp), if_pos hmem]

/-- Witness for claim C8 (amended) at a concrete input: effect 7 on the
chain `[3, 7]`. -/
theorem c8_ancestor_guard_witness :
    runGuardM (2 ^ 1) true [3, 7] 7 ⟨fun _ => ⟨false, 0, 0⟩, []⟩ [5]
      = (⟨fun _ => ⟨false, 0, 0⟩, []⟩, RunOutcome.skipped) :=
  c8_ancestor_guard (2 ^ 1) true [3, 7] 7 ⟨fun _ => ⟨false, 0, 0⟩, []⟩ [5] rfl (by decide)
